import Mathlib

/-!
Shallow embedding of `src/development-stacks/ai-ml-integration/templates/embedding-utils.py`.

Python strings are modelled as `List Char`; Python `int` as `Int` (or `Nat` where the
value is a count that the source never drives negative); numpy floating-point arithmetic
is idealized as exact real arithmetic over `ℝ`.  Fallible numpy operations (shape
errors) return `Option`.  The one loop in the source that is not structurally
recursive (`chunk_by_tokens`) is embedded with an explicit fuel parameter, `none`
meaning the fuel ran out before the loop finished.
-/

namespace EmbeddingUtils

/-- Python `str.isspace` for the ASCII whitespace characters that `str.strip()`
removes: space, tab, newline, carriage return, vertical tab, form feed. -/
def pyIsSpace (c : Char) : Bool :=
  c = ' ' || c = '\t' || c = '\n' || c = '\r' || c = '\x0b' || c = '\x0c'

/-- Python `str.strip()`: remove leading and trailing whitespace. -/
def pyStrip (s : List Char) : List Char :=
  ((s.dropWhile pyIsSpace).reverse.dropWhile pyIsSpace).reverse

/-- Python slice-index adjustment: a negative index counts from the end (clamped
below at 0), a nonnegative index is clamped above at the length. -/
def pyAdj (n : Nat) (i : Int) : Nat :=
  if i < 0 then (i + n).toNat else min i.toNat n

/-- Python slice `s[i:j]` with full negative-index and clamping semantics. -/
def pySlice (s : List Char) (i j : Int) : List Char :=
  (s.take (pyAdj s.length j)).drop (pyAdj s.length i)

/-- Python `s.rfind(sub, i, j)`: highest absolute position `p` with
`adjusted i ≤ p`, `p + len sub ≤ adjusted j` and `sub` occurring at `p`;
`-1` when there is no such occurrence.  The start/end arguments are adjusted
with Python slice semantics, but the result is an absolute index. -/
def pyRfind (s sub : List Char) (i j : Int) : Int :=
  let a := pyAdj s.length i
  let b := pyAdj s.length j
  match ((List.range (s.length + 1)).filter
      (fun p => decide (a ≤ p) && decide (p + sub.length ≤ b) &&
        decide ((s.drop p).take sub.length = sub))).getLast? with
  | some p => (p : Int)
  | none => -1

/-- Helper for `pySplit`: structural recursion on a fuel counter that dominates
the remaining text length.  `cur` is the token accumulated since the last
separator occurrence. -/
def pySplitAux (sep : List Char) : Nat → List Char → List Char → List (List Char)
  | 0, cur, _ => [cur]
  | fuel+1, cur, text =>
    if sep ≠ [] ∧ sep.isPrefixOf text then
      cur :: pySplitAux sep fuel [] (text.drop sep.length)
    else
      match text with
      | [] => [cur]
      | c :: rest => pySplitAux sep fuel (cur ++ [c]) rest

/-- Python `text.split(sep)` for a nonempty separator: split at every occurrence,
keeping empty tokens (so `"".split(sep) = [""]`).  Python raises `ValueError` on an
empty separator; the source only ever splits on the nonempty `separator` argument,
and the empty-separator branch here is never exercised by the claims. -/
def pySplit (text sep : List Char) : List (List Char) :=
  if sep = [] then [text] else pySplitAux sep (text.length + 1) [] text

/-- Embedding of `chunk_text` (embedding-utils.py lines 193-232): split on the
separator, accumulate paragraphs into a running chunk, emit the running chunk when
the next paragraph would push `current_size` past `chunk_size`, keeping the last
paragraph as an overlap seed whenever the emitted chunk is longer than `overlap`,
and always emit the final accumulated chunk.  The loop state is
(chunks, current_chunk, current_size), exactly as in the source. -/
def chunk_text (text : List Char) (chunk_size overlap : Int) (separator : List Char) :
    List (List Char) :=
  let step : List (List Char) × List (List Char) × Int → List Char →
      List (List Char) × List (List Char) × Int :=
    fun st para =>
      let chunks := st.1
      let current_chunk := st.2.1
      let current_size := st.2.2
      let para_size : Int := para.length
      let st2 :=
        if current_size + para_size > chunk_size ∧ current_chunk ≠ [] then
          let joined := List.intercalate separator current_chunk
          if (joined.length : Int) > overlap then
            (chunks ++ [joined], ([current_chunk.getLastD []] : List (List Char)),
              ((current_chunk.getLastD []).length : Int))
          else
            (chunks ++ [joined], ([] : List (List Char)), (0 : Int))
        else (chunks, current_chunk, current_size)
      (st2.1, st2.2.1 ++ [para], st2.2.2 + para_size)
  let fin := (pySplit text separator).foldl step ([], [], 0)
  if fin.2.1 ≠ [] then fin.1 ++ [List.intercalate separator fin.2.1] else fin.1

/-- The sentence boundaries of `chunk_by_tokens`, in the priority order of the
source: ". ", "! ", "? ", "\n". -/
def pyBoundaries : List (List Char) := [['.', ' '], ['!', ' '], ['?', ' '], ['\n']]

/-- The boundary-search loop of `chunk_by_tokens`: try each boundary in order,
and on the first one whose `rfind` over `[start, e)` lies strictly past `start`,
cut there (returning `last_boundary + len boundary`); otherwise keep `e`. -/
def tryBoundaries (text : List Char) (start : Int) (e : Int) : List (List Char) → Int
  | [] => e
  | b :: rest =>
    let lb := pyRfind text b start e
    if lb > start then lb + b.length else tryBoundaries text start e rest

/-- One iteration of the `chunk_by_tokens` while loop: compute the window end
(with the sentence-boundary adjustment applied only when the raw end is inside
the text), and return the emitted (unfiltered) chunk together with the next
window start `end - overlap`. -/
def chunkStep (text : List Char) (chunk_size overlap : Nat) (start : Int) :
    List Char × Int :=
  let end0 : Int := start + chunk_size
  let end1 : Int := if end0 < (text.length : Int) then tryBoundaries text start end0 pyBoundaries else end0
  (pyStrip (pySlice text start end1), end1 - overlap)

/-- The `while start < len(text)` loop of `chunk_by_tokens`, with fuel.  `none`
means the fuel was exhausted before the loop condition became false. -/
def chunkLoop (text : List Char) (chunk_size overlap : Nat) : Nat → Int → Option (List (List Char))
  | 0, _ => none
  | fuel+1, start =>
    if start < (text.length : Int) then
      match chunkLoop text chunk_size overlap fuel (chunkStep text chunk_size overlap start).2 with
      | none => none
      | some rest => some ((chunkStep text chunk_size overlap start).1 :: rest)
    else some []

/-- Embedding of `chunk_by_tokens` (embedding-utils.py lines 235-263):
`chunk_size = max_tokens * 4`, `overlap = overlap_tokens * 4`, walk the text with
`chunkLoop` from start 0 and drop the chunks that stripped to empty.  `none` means
the source loop runs longer than the supplied fuel (for the divergent inputs below,
longer than any fuel). -/
def chunk_by_tokens (text : List Char) (max_tokens overlap_tokens : Nat) (fuel : Nat) :
    Option (List (List Char)) :=
  (chunkLoop text (max_tokens * 4) (overlap_tokens * 4) fuel 0).map
    (fun cs => cs.filter (fun c => decide (c ≠ [])))

/-- Python `self.cache[k] = v` on an insertion-ordered dict: overwrite in place when
the key is present (keeping its position), otherwise append at the end. -/
def pyDictInsert {α : Type} (c : List (Int × α)) (k : Int) (v : α) : List (Int × α) :=
  if (c.map Prod.fst).contains k then
    c.map (fun p => if p.1 = k then (k, v) else p)
  else c ++ [(k, v)]

/-- Embedding of `EmbeddingCache` (embedding-utils.py lines 270-288): the Python
dict is modelled as an insertion-ordered association list with unique `Int` keys
(Python `hash` values); the stored value type is abstract. -/
structure EmbeddingCache (α : Type) where
  cache : List (Int × α)
  max_size : Nat

/-- Embedding of `EmbeddingCache.get`: look the hash of the text up in the dict. -/
def EmbeddingCache.get {α : Type} (c : EmbeddingCache α) (hash : String → Int)
    (text : String) : Option α :=
  (c.cache.find? (fun p => decide (p.1 = hash text))).map Prod.snd

/-- Embedding of `EmbeddingCache.set` (embedding-utils.py lines 281-288): when
`len(self.cache) >= self.max_size`, delete the first-inserted key (the head of the
insertion-ordered dict), then insert under `hash(text)`.  Python raises
StopIteration when evicting from an empty dict (only reachable with
`max_size = 0`); the embedding's `drop 1` is the identity there, and every claim
about `set` assumes `max_size ≥ 1`, where that branch is unreachable. -/
def EmbeddingCache.set {α : Type} (c : EmbeddingCache α) (hash : String → Int)
    (text : String) (v : α) : EmbeddingCache α :=
  let base := if c.max_size ≤ c.cache.length then c.cache.drop 1 else c.cache
  { c with cache := pyDictInsert base (hash text) v }

/-- Convenience: the result of folding a list of `set` operations over a cache. -/
def runSets {α : Type} (hash : String → Int) (c : EmbeddingCache α)
    (ops : List (String × α)) : EmbeddingCache α :=
  ops.foldl (fun cc p => cc.set hash p.1 p.2) c

noncomputable section

/-- np.dot of two equal-length 1-D arrays (the source only applies it through the
length-checking wrappers below, or to rows of a rectangular 2-D array). -/
def dotList (a b : List ℝ) : ℝ := (List.zipWith (fun x y => x * y) a b).sum

/-- np.linalg.norm of a 1-D array: the square root of the sum of squares. -/
def l2norm (v : List ℝ) : ℝ := Real.sqrt ((v.map (fun x => x * x)).sum)

/-- The arithmetic of `cosine_similarity` (embedding-utils.py lines 99-101):
`np.dot(a, b) / (np.linalg.norm(a) * np.linalg.norm(b))`. -/
def cosineSim (a b : List ℝ) : ℝ := dotList a b / (l2norm a * l2norm b)

/-- Embedding of `cosine_similarity`: `np.dot` raises ValueError when the two 1-D
operands have different lengths, which the embedding reports as `none`. -/
def cosine_similarity (a b : List ℝ) : Option ℝ :=
  if a.length = b.length then some (cosineSim a b) else none

/-- Embedding of `dot_product` (embedding-utils.py lines 118-120), with the same
`np.dot` shape contract as `cosine_similarity`. -/
def dot_product (a b : List ℝ) : Option ℝ :=
  if a.length = b.length then some (dotList a b) else none

/-- numpy elementwise subtraction of two 1-D arrays with broadcasting: equal
lengths subtract pointwise, a length-1 operand broadcasts against the other, and
any other length mismatch raises (reported as `none`). -/
def npBroadcastSub (a b : List ℝ) : Option (List ℝ) :=
  if a.length = b.length then some (List.zipWith (fun x y => x - y) a b)
  else if b.length = 1 then some (a.map (fun x => x - b.headD 0))
  else if a.length = 1 then some (b.map (fun y => a.headD 0 - y))
  else none

/-- Embedding of `euclidean_distance` (embedding-utils.py lines 113-115):
`np.linalg.norm(a - b)`, where `a - b` uses numpy broadcasting. -/
def euclidean_distance (a b : List ℝ) : Option ℝ :=
  (npBroadcastSub a b).map l2norm

/-- Embedding of `cosine_similarity_matrix` (embedding-utils.py lines 104-110):
normalize every candidate row and the query by their own norms (no clamping in
this function), then take the dot product of each normalized row with the
normalized query, preserving row order.  `embeddings` is a 2-D ndarray in the
source, so its rows all have the query's dimension. -/
def cosine_similarity_matrix (embeddings : List (List ℝ)) (query : List ℝ) : List ℝ :=
  let query_norm := query.map (fun x => x / l2norm query)
  embeddings.map (fun row => dotList (row.map (fun x => x / l2norm row)) query_norm)

/-- The order realized by a stable ascending argsort of the score list: compare by
score, breaking ties by original position.  A stable ascending sort of the
(distinct) index list `0, ..., n-1` keyed by `s` is exactly the sort by this
lexicographic order. -/
def lexLe (s : List ℝ) (i j : Nat) : Prop :=
  s.getD i 0 < s.getD j 0 ∨ (s.getD i 0 = s.getD j 0 ∧ i ≤ j)

instance lexLeDec (s : List ℝ) : DecidableRel (lexLe s) := fun _ _ => Classical.dec _

instance lexLeTotal (s : List ℝ) : IsTotal Nat (lexLe s) where
  total i j := by
    rcases lt_trichotomy (s.getD i 0) (s.getD j 0) with h | h | h
    · exact Or.inl (Or.inl h)
    · rcases Nat.le_total i j with hij | hij
      · exact Or.inl (Or.inr ⟨h, hij⟩)
      · exact Or.inr (Or.inr ⟨h.symm, hij⟩)
    · exact Or.inr (Or.inl h)

instance lexLeTrans (s : List ℝ) : IsTrans Nat (lexLe s) where
  trans i j k hij hjk := by
    rcases hij with h1 | ⟨e1, le1⟩
    · rcases hjk with h2 | ⟨e2, _⟩
      · exact Or.inl (h1.trans h2)
      · exact Or.inl (e2 ▸ h1)
    · rcases hjk with h2 | ⟨e2, le2⟩
      · exact Or.inl (e1 ▸ h2)
      · exact Or.inr ⟨e1.trans e2, le1.trans le2⟩

/-- Embedding of `np.argsort(similarities)`: an ascending, stable argsort of the
score list, i.e. the index list `0, ..., n-1` sorted by the lexicographic order
`lexLe` (score ascending, ties by ascending original index).  numpy's default
introsort falls back to a stable insertion sort on the small arrays at issue
here, and the spec itself mandates a stable sort. -/
def argsortAsc (s : List ℝ) : List Nat :=
  List.insertionSort (lexLe s) (List.range s.length)

/-- Embedding of the `SearchResult` dataclass.  `search_similar` never sets the
`metadata` field, so it is omitted. -/
structure SearchResult where
  index : Nat
  score : ℝ
  text : Option String

/-- Embedding of `search_similar` (embedding-utils.py lines 136-163): score every
candidate with `cosine_similarity_matrix`, take the reversed ascending argsort,
keep the first `top_k` indices, skip those whose score is strictly below
`threshold`, and build a `SearchResult` for each survivor (attaching
`texts[idx]` when a texts list was supplied).  `top_k` is a count, modelled as
`Nat` (the source's `[:top_k]` slice for nonnegative `top_k`). -/
def search_similar (embeddings : List (List ℝ)) (query : List ℝ)
    (texts : Option (List String)) (top_k : Nat) (threshold : ℝ) : List SearchResult :=
  let similarities := cosine_similarity_matrix embeddings query
  let top_indices := ((argsortAsc similarities).reverse).take top_k
  (top_indices.filter (fun idx => decide (¬ similarities.getD idx 0 < threshold))).map
    (fun idx => ⟨idx, similarities.getD idx 0, texts.map (fun ts => ts.getD idx "")⟩)

/-- The loop body of `deduplicate_by_similarity`: index `i` is a duplicate when
some already-kept index `j` has cosine similarity at least `threshold` with it;
otherwise `i` is appended to the kept list. -/
def dedupStep (embeddings : List (List ℝ)) (threshold : ℝ) (unique : List Nat) (i : Nat) :
    List Nat :=
  if ∃ j ∈ unique, threshold ≤ cosineSim (embeddings.getD i []) (embeddings.getD j []) then
    unique
  else unique ++ [i]

/-- Embedding of `deduplicate_by_similarity` (embedding-utils.py lines 166-186):
scan indices in order, keeping an index unless some already-kept index has cosine
similarity at least `threshold` with it.  The rows of the 2-D `embeddings` array
all have one length, so the `cosine_similarity` calls inside never hit the shape
error and compute `cosineSim`. -/
def deduplicate_by_similarity (embeddings : List (List ℝ)) (threshold : ℝ) : List Nat :=
  (List.range embeddings.length).foldl (dedupStep embeddings threshold) []

end

/-! ### Helper lemmas about the cache -/

theorem pyDictInsert_of_not_mem {α : Type} (c : List (Int × α)) (k : Int) (v : α)
    (h : k ∉ c.map Prod.fst) : pyDictInsert c k v = c ++ [(k, v)] := by
  unfold pyDictInsert
  rw [if_neg]
  simpa using h

theorem pyDictInsert_length_le {α : Type} (c : List (Int × α)) (k : Int) (v : α) :
    (pyDictInsert c k v).length ≤ c.length + 1 := by
  unfold pyDictInsert
  split
  · simp
  · simp

theorem pyDictInsert_keys_of_mem {α : Type} (c : List (Int × α)) (k : Int) (v : α)
    (h : k ∈ c.map Prod.fst) :
    (pyDictInsert c k v).map Prod.fst = c.map Prod.fst := by
  unfold pyDictInsert
  rw [if_pos (by simpa using h), List.map_map]
  refine List.map_congr_left ?_
  intro p _
  by_cases hp : p.1 = k
  · simp [hp]
  · simp [hp]

theorem pyDictInsert_length_of_mem {α : Type} (c : List (Int × α)) (k : Int) (v : α)
    (h : k ∈ c.map Prod.fst) : (pyDictInsert c k v).length = c.length := by
  have := congrArg List.length (pyDictInsert_keys_of_mem c k v h)
  simpa using this

theorem set_max_size {α : Type} (c : EmbeddingCache α) (hash : String → Int)
    (t : String) (v : α) : (c.set hash t v).max_size = c.max_size := rfl

theorem set_length_le {α : Type} (c : EmbeddingCache α) (hash : String → Int)
    (t : String) (v : α) (h1 : 1 ≤ c.max_size) (hle : c.cache.length ≤ c.max_size) :
    (c.set hash t v).cache.length ≤ c.max_size := by
  unfold EmbeddingCache.set
  by_cases hb : c.max_size ≤ c.cache.length
  · have hlen : c.cache.length = c.max_size := le_antisymm hle hb
    rw [if_pos hb]
    calc (pyDictInsert (c.cache.drop 1) (hash t) v).length
        ≤ (c.cache.drop 1).length + 1 := pyDictInsert_length_le _ _ _
      _ = c.cache.length - 1 + 1 := by simp
      _ ≤ c.max_size := by omega
  · rw [if_neg hb]
    calc (pyDictInsert c.cache (hash t) v).length
        ≤ c.cache.length + 1 := pyDictInsert_length_le _ _ _
      _ ≤ c.max_size := by omega

theorem runSets_max_size {α : Type} (hash : String → Int) (ops : List (String × α)) :
    ∀ c : EmbeddingCache α, (runSets hash c ops).max_size = c.max_size := by
  induction ops with
  | nil => intro c; rfl
  | cons p rest ih =>
    intro c
    have := ih (c.set hash p.1 p.2)
    simpa [runSets, set_max_size] using this

theorem runSets_length_le {α : Type} (hash : String → Int) (ops : List (String × α)) :
    ∀ c : EmbeddingCache α, 1 ≤ c.max_size → c.cache.length ≤ c.max_size →
      (runSets hash c ops).cache.length ≤ c.max_size := by
  induction ops with
  | nil => intro c _ hle; exact hle
  | cons p rest ih =>
    intro c h1 hle
    have hstep := set_length_le c hash p.1 p.2 h1 hle
    have := ih (c.set hash p.1 p.2) (by rw [set_max_size]; exact h1)
      (by rw [set_max_size]; exact hstep)
    rw [set_max_size] at this
    simpa [runSets] using this

theorem runSets_fill {α : Type} (hash : String → Int) (ops : List (String × α)) :
    ∀ c : EmbeddingCache α,
      c.cache.length + ops.length ≤ c.max_size →
      (∀ p ∈ ops, hash p.1 ∉ c.cache.map Prod.fst) →
      (ops.map fun p => hash p.1).Nodup →
      (runSets hash c ops).cache = c.cache ++ (ops.map fun p => (hash p.1, p.2)) := by
  induction ops with
  | nil => intro c _ _ _; simp [runSets]
  | cons p rest ih =>
    intro c hlen hfresh hnd
    have hlt : c.cache.length < c.max_size := by
      have : 1 ≤ (p :: rest).length := by simp
      omega
    have hset : (c.set hash p.1 p.2).cache = c.cache ++ [(hash p.1, p.2)] := by
      unfold EmbeddingCache.set
      rw [if_neg (by omega)]
      exact pyDictInsert_of_not_mem _ _ _ (hfresh p (by simp))
    have hms : (c.set hash p.1 p.2).max_size = c.max_size := rfl
    have hrec := ih (c.set hash p.1 p.2)
      (by rw [hset, hms]; simp at hlen ⊢; omega)
      (by
        intro q hq
        rw [hset]
        simp only [List.map_append, List.mem_append]
        rintro (hq1 | hq2)
        · exact hfresh q (by simp [hq]) hq1
        · simp at hq2
          rcases List.nodup_cons.mp hnd with ⟨hnotin, _⟩
          exact hnotin (by
            have := List.mem_map_of_mem (fun r => hash r.1) hq
            simpa [hq2] using this))
      (List.nodup_cons.mp hnd).2
    rw [hset] at hrec
    simp only [runSets, List.foldl_cons] at hrec ⊢
    rw [hrec]
    simp

theorem set_full_fresh_key {α : Type} (c : EmbeddingCache α) (hash : String → Int)
    (t : String) (v : α) (hfull : c.cache.length = c.max_size)
    (hnew : hash t ∉ c.cache.map Prod.fst) :
    (c.set hash t v).cache = c.cache.drop 1 ++ [(hash t, v)] := by
  unfold EmbeddingCache.set
  rw [if_pos (by omega)]
  refine pyDictInsert_of_not_mem _ _ _ ?_
  intro hmem
  exact hnew (by
    have : (c.cache.drop 1).map Prod.fst = (c.cache.map Prod.fst).drop 1 := by
      simp [List.map_drop]
    rw [this] at hmem
    exact List.drop_subset 1 _ hmem)

/-- C5: starting from an empty cache with capacity `maxSize ≥ 1`, no sequence of
`set` operations ever pushes the entry count past `maxSize`; and a sequence of
`maxSize + 1` insertions with pairwise distinct hashes leaves exactly the last
`maxSize` entries in insertion order — the first-inserted entry (and only it) has
been evicted, FIFO style. -/
theorem cache_capacity_fifo {α : Type} (hash : String → Int) (maxSize : Nat)
    (ops : List (String × α)) (h1 : 1 ≤ maxSize) :
    (runSets hash ⟨[], maxSize⟩ ops).cache.length ≤ maxSize ∧
    (ops.length = maxSize + 1 → (ops.map fun p => hash p.1).Nodup →
      (runSets hash ⟨[], maxSize⟩ ops).cache = (ops.drop 1).map fun p => (hash p.1, p.2)) := by
  constructor
  · exact runSets_length_le hash ops ⟨[], maxSize⟩ h1 (by simp)
  · intro hlen hnd
    match ops, hlen with
    | (t0, v0) :: rest, hlen =>
      have hrestlen : rest.length = maxSize := by simpa using hlen
      have hrest_ne : rest ≠ [] := by
        intro h
        rw [h] at hrestlen
        simp at hrestlen
        omega
      rcases (List.eq_nil_or_concat rest).resolve_left hrest_ne with ⟨init, last, hsplit⟩
      have hngx : ((t0, v0) :: rest).map (fun p => hash p.1)
          = hash t0 :: rest.map (fun p => hash p.1) := by simp
      rw [hngx] at hnd
      rcases List.nodup_cons.mp hnd with ⟨h0notin, hndrest⟩
      -- the first set fills the empty cache with the single entry for t0
      have hc0 : (EmbeddingCache.set ⟨[], maxSize⟩ hash t0 v0).cache
          = [(hash t0, v0)] := by
        unfold EmbeddingCache.set
        rw [if_neg (by simp; omega)]
        simp [pyDictInsert]
      have hstep : runSets hash (⟨[], maxSize⟩ : EmbeddingCache α) ((t0, v0) :: rest)
          = runSets hash (EmbeddingCache.set ⟨[], maxSize⟩ hash t0 v0) rest := by
        simp [runSets]
      rw [hstep]
      -- split the remaining maxSize operations into the filling part and the last one
      rw [hsplit, List.concat_eq_append]
      have hinitlen : init.length = maxSize - 1 := by
        rw [hsplit] at hrestlen
        simp at hrestlen
        omega
      have hndinit : (init.map fun p => hash p.1).Nodup ∧
          hash last.1 ∉ init.map (fun p => hash p.1) := by
        rw [hsplit, List.concat_eq_append, List.map_append] at hndrest
        rcases List.nodup_append.mp hndrest with ⟨ha, _, hdisj⟩
        exact ⟨ha, fun hm => hdisj hm (by simp)⟩
      have hfillfresh : ∀ p ∈ init, hash p.1 ∉
          ((EmbeddingCache.set ⟨[], maxSize⟩ hash t0 v0).cache.map Prod.fst) := by
        intro p hp
        rw [hc0]
        simp only [List.map_cons, List.map_nil, List.mem_singleton]
        intro heq
        exact h0notin (by
          rw [hsplit, List.concat_eq_append, List.map_append]
          exact List.mem_append_left _ (heq ▸ List.mem_map_of_mem (fun r => hash r.1) hp))
      have hms0 : (EmbeddingCache.set (⟨[], maxSize⟩ : EmbeddingCache α) hash t0 v0).max_size
          = maxSize := rfl
      have hfill := runSets_fill hash init (EmbeddingCache.set ⟨[], maxSize⟩ hash t0 v0)
        (by rw [hc0, hms0]; simp; omega) hfillfresh hndinit.1
      rw [hc0] at hfill
      -- run the fold over init ++ [last]
      have happ : runSets hash (EmbeddingCache.set ⟨[], maxSize⟩ hash t0 v0) (init ++ [last])
          = EmbeddingCache.set
              (runSets hash (EmbeddingCache.set ⟨[], maxSize⟩ hash t0 v0) init)
              hash last.1 last.2 := by
        simp [runSets, List.foldl_append]
      rw [happ]
      set cmid := runSets hash (EmbeddingCache.set ⟨[], maxSize⟩ hash t0 v0) init with hcmid
      have hmidcache : cmid.cache = (hash t0, v0) :: (init.map fun p => (hash p.1, p.2)) := by
        rw [hcmid, hfill]
        simp
      have hmidms : cmid.max_size = maxSize := by
        rw [hcmid, runSets_max_size]
        exact hms0
      have hmidlen : cmid.cache.length = cmid.max_size := by
        rw [hmidcache, hmidms]
        simp
        omega
      have hmidfresh : hash last.1 ∉ cmid.cache.map Prod.fst := by
        rw [hmidcache]
        simp only [List.map_cons, List.map_map, List.mem_cons]
        rintro (h | h)
        · exact h0notin (by
            rw [hsplit, List.concat_eq_append, List.map_append]
            exact List.mem_append_right _ (by simp [h]))
        · exact hndinit.2 (by simpa using h)
      have hlaststep := set_full_fresh_key cmid hash last.1 last.2 hmidlen hmidfresh
      rw [hlaststep, hmidcache]
      simp

/-- Witness for `cache_capacity_fifo` at capacity 1 with two insertions of
distinct hashes: the hypotheses hold and the fold leaves exactly the second
entry. -/
theorem cache_capacity_fifo_witness :
    1 ≤ 1 ∧
    ((runSets (fun s => (s.length : Int)) ⟨[], 1⟩ [("a", (10 : Nat)), ("bb", 20)]).cache.length ≤ 1 ∧
    (([("a", (10 : Nat)), ("bb", 20)].length = 1 + 1 →
      ([("a", (10 : Nat)), ("bb", 20)].map fun p => ((p.1.length : Int))).Nodup →
      (runSets (fun s => (s.length : Int)) ⟨[], 1⟩ [("a", (10 : Nat)), ("bb", 20)]).cache
        = ([("a", (10 : Nat)), ("bb", 20)].drop 1).map fun p => (((p.1.length : Int)), p.2)))) :=
  ⟨by decide, cache_capacity_fifo (fun s => (s.length : Int)) 1 [("a", 10), ("bb", 20)] (by decide)⟩

/-- C10: when the cache is exactly full and `set` is called on a text whose hash
is already a cached key other than the oldest one, the capacity check still
evicts the oldest entry, and the following insert only overwrites in place — so
the entry count drops to `maxSize - 1` and the oldest key is gone. -/
theorem cache_overwrite_when_full_drops_oldest {α : Type} (hash : String → Int)
    (k0 : Int) (v0 : α) (rest : List (Int × α)) (maxSize : Nat) (t : String) (v : α)
    (hnodup : (((k0, v0) :: rest).map Prod.fst).Nodup)
    (hfull : ((k0, v0) :: rest).length = maxSize)
    (hmem : hash t ∈ ((k0, v0) :: rest).map Prod.fst)
    (hne : hash t ≠ k0) :
    ((EmbeddingCache.mk ((k0, v0) :: rest) maxSize).set hash t v).cache.length = maxSize - 1 ∧
    k0 ∉ ((EmbeddingCache.mk ((k0, v0) :: rest) maxSize).set hash t v).cache.map Prod.fst := by
  have hmemrest : hash t ∈ rest.map Prod.fst := by
    simp only [List.map_cons, List.mem_cons] at hmem
    exact hmem.resolve_left hne
  have hset : ((EmbeddingCache.mk ((k0, v0) :: rest) maxSize).set hash t v).cache
      = pyDictInsert rest (hash t) v := by
    unfold EmbeddingCache.set
    rw [if_pos (by simp at hfull ⊢; omega)]
    rfl
  have hkeys : (pyDictInsert rest (hash t) v).map Prod.fst = rest.map Prod.fst :=
    pyDictInsert_keys_of_mem rest (hash t) v hmemrest
  constructor
  · rw [hset, pyDictInsert_length_of_mem rest (hash t) v hmemrest]
    simp at hfull
    omega
  · rw [hset, hkeys]
    have hnd2 := hnodup
    simp only [List.map_cons] at hnd2
    exact (List.nodup_cons.mp hnd2).1

/-- Witness for `cache_overwrite_when_full_drops_oldest`: a full two-entry cache,
updated at its second key, loses the first key and shrinks to one entry. -/
theorem cache_overwrite_when_full_drops_oldest_witness :
    ((((5 : Int), (0 : Nat)) :: [((2 : Int), (1 : Nat))]).map Prod.fst).Nodup ∧
    (((5 : Int), (0 : Nat)) :: [((2 : Int), (1 : Nat))]).length = 2 ∧
    ((fun s : String => (s.length : Int)) "bb") ∈
      ((((5 : Int), (0 : Nat)) :: [((2 : Int), (1 : Nat))]).map Prod.fst) ∧
    ((fun s : String => (s.length : Int)) "bb") ≠ (5 : Int) ∧
    (((EmbeddingCache.mk (((5 : Int), (0 : Nat)) :: [((2 : Int), (1 : Nat))]) 2).set
        (fun s => (s.length : Int)) "bb" 7).cache.length = 2 - 1 ∧
      (5 : Int) ∉ ((EmbeddingCache.mk (((5 : Int), (0 : Nat)) :: [((2 : Int), (1 : Nat))]) 2).set
        (fun s => (s.length : Int)) "bb" 7).cache.map Prod.fst) :=
  ⟨by decide, by decide, by decide, by decide,
    cache_overwrite_when_full_drops_oldest (fun s => (s.length : Int)) 5 0 [(2, 1)] 2 "bb" 7
      (by decide) (by decide) (by decide) (by decide)⟩

/-! ### Chunking claims -/

/-- C3, counterexample: `chunk_text "a\nb\nc" 1 0 "\n"` does not return the three
single-character chunks the claim expects.  With `overlap = 0` every emitted
chunk has length greater than the overlap, so the last paragraph is always kept
as a seed for the next chunk. -/
theorem chunkText_abc_counterexample :
    chunk_text "a\nb\nc".toList 1 0 ['\n'] ≠ [['a'], ['b'], ['c']] := by decide

/-- C3, amended: `chunk_text "a\nb\nc" 1 0 "\n"` returns `["a", "a\nb", "b\nc"]`:
each emitted chunk keeps its last paragraph as the seed of the next chunk, because
each emitted chunk's length exceeds the overlap of 0. -/
theorem chunkText_abc_actual :
    chunk_text "a\nb\nc".toList 1 0 ['\n'] = [['a'], ['a', '\n', 'b'], ['b', '\n', 'c']] := by
  decide

/-- C7, counterexample: `chunk_text` can emit an empty chunk — on the empty input
text the final flush emits the single chunk `""` (the split of `""` is `[""]`, a
nonempty paragraph list whose join is empty). -/
theorem chunkText_emits_empty_chunk :
    chunk_text [] 500 50 ['\n'] = [[]] ∧ [] ∈ chunk_text [] 500 50 ['\n'] := by
  constructor
  · decide
  · decide

/-- C7, amended: `chunk_by_tokens` never emits an empty chunk — its final list
comprehension filters out every chunk that stripped to the empty string.
(`chunk_text` has no such filter and can emit empty chunks, as the
counterexample shows.) -/
theorem chunkByTokens_no_empty (text : List Char) (max_tokens overlap_tokens fuel : Nat)
    (out : List (List Char)) (h : chunk_by_tokens text max_tokens overlap_tokens fuel = some out) :
    ∀ c ∈ out, c ≠ [] := by
  intro c hc
  unfold chunk_by_tokens at h
  rcases hml : chunkLoop text (max_tokens * 4) (overlap_tokens * 4) fuel 0 with _ | cs
  · rw [hml] at h
    simp at h
  · rw [hml] at h
    simp only [Option.map_some', Option.some_inj] at h
    rw [← h] at hc
    have := List.of_mem_filter hc
    simpa using this

/-- Witness for `chunkByTokens_no_empty`: a concrete terminating run whose single
chunk is nonempty. -/
theorem chunkByTokens_no_empty_witness :
    chunk_by_tokens "ab".toList 500 50 2 = some [['a', 'b']] ∧
      ∀ c ∈ [['a', 'b']], c ≠ [] :=
  ⟨by decide, chunkByTokens_no_empty "ab".toList 500 50 2 [['a', 'b']] (by decide)⟩

/-- C8, counterexample: `chunk_text` called with `chunk_size = 0` (≤ 0) raises
nothing — there is no validation anywhere in the source — and simply returns the
whole text as one chunk. -/
theorem chunkText_no_validation_counterexample :
    chunk_text "ab".toList 0 0 ['\n'] = [['a', 'b']] := by decide

/-- Helper for the amended C8: with `max_tokens = 0` the window start of
`chunk_by_tokens` is stuck at 0 (`end = start + 0`, no boundary beats `start`,
and `start` advances by `end - overlap = 0`), so the loop never finishes for a
nonempty text. -/
theorem chunkLoop_zero_size_stuck :
    ∀ fuel : Nat, chunkLoop "ab".toList 0 0 fuel 0 = none := by
  intro fuel
  induction fuel with
  | zero => rfl
  | succ n ih =>
    simp only [chunkLoop]
    rw [if_pos (by decide)]
    rw [(by decide : (chunkStep "ab".toList 0 0 0).2 = 0)]
    rw [ih]

/-- C8, amended: no `InvalidConfiguration` (or any other) validation exists.
`chunk_text` with `chunk_size ≤ 0` proceeds and returns a normal result, and
`chunk_by_tokens` with `max_tokens ≤ 0` hangs forever on any nonempty text (the
loop outlives every fuel bound) instead of raising at call time. -/
theorem no_validation_on_nonpositive_params :
    chunk_text "ab".toList 0 0 ['\n'] = [['a', 'b']] ∧
      ∀ fuel : Nat, chunk_by_tokens "ab".toList 0 0 fuel = none := by
  constructor
  · decide
  · intro fuel
    unfold chunk_by_tokens
    rw [(by norm_num : (0 * 4 : Nat) = 0)]
    rw [chunkLoop_zero_size_stuck fuel]
    rfl

/-- Helper for C4: from window start `-3` the loop of `chunk_by_tokens` on the
text "a\nbbbbbbbb" with `chunk_size = overlap = 4` is at a fixed point: the raw
end is `1 < 10`, the ". " boundary search returns `-1 > -3` so the end is cut to
`-1 + 2 = 1`, and the next start is `1 - 4 = -3` again. -/
theorem chunkLoop_c4_stuck :
    ∀ fuel : Nat, chunkLoop "a\nbbbbbbbb".toList 4 4 fuel (-3) = none := by
  intro fuel
  induction fuel with
  | zero => rfl
  | succ n ih =>
    simp only [chunkLoop]
    rw [if_pos (by decide)]
    rw [(by decide : (chunkStep "a\nbbbbbbbb".toList 4 4 (-3)).2 = -3)]
    rw [ih]

/-- C4: `chunk_by_tokens("a\nbbbbbbbb", max_tokens=1, overlap_tokens=1)` never
terminates.  The first iteration cuts at the newline (`end = 2`) and steps the
start to `2 - 4 = -2`; from there Python's negative-index `rfind` semantics make
every subsequent ". " search return `-1`, which is greater than the negative
start, so the window end is pinned at `1` and the start at `-3` forever.  This
refutes the claim that the loop always advances and terminates for every
`maxTokens > 0`, `overlapTokens ≥ 0`. -/
theorem chunkByTokens_diverges :
    ∀ fuel : Nat, chunk_by_tokens "a\nbbbbbbbb".toList 1 1 fuel = none := by
  have haux2 : ∀ fuel : Nat, chunkLoop "a\nbbbbbbbb".toList 4 4 fuel (-2) = none := by
    intro fuel
    match fuel with
    | 0 => rfl
    | n + 1 =>
      simp only [chunkLoop]
      rw [if_pos (by decide)]
      rw [(by decide : (chunkStep "a\nbbbbbbbb".toList 4 4 (-2)).2 = -3)]
      rw [chunkLoop_c4_stuck n]
  have haux0 : ∀ fuel : Nat, chunkLoop "a\nbbbbbbbb".toList 4 4 fuel 0 = none := by
    intro fuel
    match fuel with
    | 0 => rfl
    | n + 1 =>
      simp only [chunkLoop]
      rw [if_pos (by decide)]
      rw [(by decide : (chunkStep "a\nbbbbbbbb".toList 4 4 0).2 = -2)]
      rw [haux2 n]
  intro fuel
  unfold chunk_by_tokens
  rw [(by norm_num : (1 * 4 : Nat) = 4)]
  rw [haux0 fuel]
  rfl

/-! ### Dimension-mismatch claims -/

/-- C9, counterexample: `euclidean_distance` on operands of different lengths 2
and 1 raises nothing — numpy broadcasts the length-1 operand — and returns the
numeric result 5 (the norm of `[1, 2] - [5] = [-4, -3]`). -/
theorem euclidean_broadcast_counterexample :
    ([(1 : ℝ), 2].length ≠ [(5 : ℝ)].length) ∧
      euclidean_distance [(1 : ℝ), 2] [(5 : ℝ)] = some 5 := by
  constructor
  · simp
  · have hsub : npBroadcastSub [(1 : ℝ), 2] [(5 : ℝ)] = some [-4, -3] := by
      unfold npBroadcastSub
      rw [if_neg (by simp), if_pos (by simp)]
      norm_num
    have hnorm : l2norm [(-4 : ℝ), -3] = 5 := by
      unfold l2norm
      rw [show (([(-4 : ℝ), -3].map fun x => x * x).sum) = 25 by norm_num]
      rw [show (25 : ℝ) = 5 ^ 2 by norm_num, Real.sqrt_sq (by norm_num : (0 : ℝ) ≤ 5)]
    unfold euclidean_distance
    rw [hsub]
    simp [hnorm]

/-- C9, amended: on operands of different lengths, `cosine_similarity` and
`dot_product` always fail with the shape error (no numeric result), and
`euclidean_distance` fails as well except when one operand has length 1, in
which case numpy broadcasting silently produces a number. -/
theorem dimension_mismatch_behavior (a b : List ℝ) (hne : a.length ≠ b.length) :
    cosine_similarity a b = none ∧ dot_product a b = none ∧
      (a.length ≠ 1 → b.length ≠ 1 → euclidean_distance a b = none) := by
  refine ⟨?_, ?_, ?_⟩
  · unfold cosine_similarity
    rw [if_neg hne]
  · unfold dot_product
    rw [if_neg hne]
  · intro ha hb
    unfold euclidean_distance npBroadcastSub
    rw [if_neg hne, if_neg hb, if_neg ha]
    rfl

/-- Witness for `dimension_mismatch_behavior` at lengths 2 and 3: all three
operations report the shape error. -/
theorem dimension_mismatch_behavior_witness :
    ([(1 : ℝ), 2].length ≠ [(1 : ℝ), 2, 3].length) ∧
      (cosine_similarity [(1 : ℝ), 2] [(1 : ℝ), 2, 3] = none ∧
        dot_product [(1 : ℝ), 2] [(1 : ℝ), 2, 3] = none ∧
        (([(1 : ℝ), 2].length ≠ 1) → ([(1 : ℝ), 2, 3].length ≠ 1) →
          euclidean_distance [(1 : ℝ), 2] [(1 : ℝ), 2, 3] = none)) :=
  ⟨by simp, dimension_mismatch_behavior [(1 : ℝ), 2] [(1 : ℝ), 2, 3] (by simp)⟩

/-! ### Deduplication claims -/

theorem dedupStep_mem_mono (e : List (List ℝ)) (θ : ℝ) (acc : List Nat) (i x : Nat)
    (hx : x ∈ acc) : x ∈ dedupStep e θ acc i := by
  unfold dedupStep
  split
  · exact hx
  · exact List.mem_append_left _ hx

theorem foldl_dedupStep_mem_mono (e : List (List ℝ)) (θ : ℝ) :
    ∀ (l : List Nat) (acc : List Nat) (x : Nat), x ∈ acc →
      x ∈ l.foldl (dedupStep e θ) acc := by
  intro l
  induction l with
  | nil => intro acc x hx; exact hx
  | cons i rest ih =>
    intro acc x hx
    exact ih (dedupStep e θ acc i) x (dedupStep_mem_mono e θ acc i x hx)

theorem dedup_range_fill (e : List (List ℝ))
    (H : ∀ i j : Nat, i < e.length → j < e.length → i ≠ j →
      cosineSim (e.getD i []) (e.getD j []) < 1) :
    ∀ k : Nat, k ≤ e.length → (List.range k).foldl (dedupStep e 1) [] = List.range k := by
  intro k
  induction k with
  | zero => intro _; rfl
  | succ m ih =>
    intro hk
    rw [List.range_succ, List.foldl_append, ih (by omega)]
    show dedupStep e 1 (List.range m) m = _
    unfold dedupStep
    rw [if_neg (by
      rintro ⟨j, hj, hsim⟩
      have hjm : j < m := List.mem_range.mp hj
      have := H m j (by omega) (by omega) (by omega)
      exact absurd hsim (not_le.mpr this))]

/-- C6, counterexample: `[1, 0]` and `[2, 0]` are distinct vectors, yet with
`threshold = 1.0` the deduplicator drops index 1, because parallel vectors have
cosine similarity exactly 1: pairwise distinctness does not imply the result is
all indices. -/
theorem dedup_distinct_counterexample :
    ([(1 : ℝ), 0] ≠ [(2 : ℝ), 0]) ∧
      deduplicate_by_similarity [[(1 : ℝ), 0], [(2 : ℝ), 0]] 1 = [0] ∧
      deduplicate_by_similarity [[(1 : ℝ), 0], [(2 : ℝ), 0]] 1 ≠ List.range 2 := by
  have hsim : cosineSim ([[(1 : ℝ), 0], [(2 : ℝ), 0]].getD 1 [])
      ([[(1 : ℝ), 0], [(2 : ℝ), 0]].getD 0 []) = 1 := by
    show cosineSim [(2 : ℝ), 0] [(1 : ℝ), 0] = 1
    unfold cosineSim dotList l2norm
    rw [show ((List.zipWith (fun x y => x * y) [(2 : ℝ), 0] [(1 : ℝ), 0]).sum) = 2 by norm_num]
    rw [show (([(2 : ℝ), 0].map fun x => x * x).sum) = 4 by norm_num]
    rw [show (([(1 : ℝ), 0].map fun x => x * x).sum) = 1 by norm_num]
    rw [show (4 : ℝ) = 2 ^ 2 by norm_num, Real.sqrt_sq (by norm_num : (0 : ℝ) ≤ 2),
      Real.sqrt_one]
    norm_num
  have hrun : deduplicate_by_similarity [[(1 : ℝ), 0], [(2 : ℝ), 0]] 1 = [0] := by
    unfold deduplicate_by_similarity
    rw [show List.range ([[(1 : ℝ), 0], [(2 : ℝ), 0]].length) = [0, 1] from rfl]
    show dedupStep _ 1 (dedupStep _ 1 [] 0) 1 = [0]
    have h0 : dedupStep [[(1 : ℝ), 0], [(2 : ℝ), 0]] 1 [] 0 = [0] := by
      unfold dedupStep
      rw [if_neg (by simp)]
      rfl
    rw [h0]
    unfold dedupStep
    rw [if_pos ⟨0, by simp, le_of_eq hsim.symm⟩]
  exact ⟨by simp, hrun, by rw [hrun]; decide⟩

/-- C6, amended: for every nonempty collection index 0 is always kept (the first
vector has no kept predecessors to compare against); and with `threshold = 1.0`
the result is all indices `0 .. n-1` provided every pair of distinct positions
has cosine similarity strictly below 1 (pairwise non-parallel; mere distinctness
is not enough, by the counterexample). -/
theorem dedup_keeps_zero_and_all (vs : List (List ℝ)) (θ : ℝ) (hne : vs ≠ []) :
    0 ∈ deduplicate_by_similarity vs θ ∧
      ((∀ i j : Nat, i < vs.length → j < vs.length → i ≠ j →
          cosineSim (vs.getD i []) (vs.getD j []) < 1) →
        deduplicate_by_similarity vs 1 = List.range vs.length) := by
  constructor
  · unfold deduplicate_by_similarity
    obtain ⟨m, hm⟩ : ∃ m, vs.length = m + 1 := by
      have : vs.length ≠ 0 := fun h => hne (List.eq_nil_of_length_eq_zero h)
      exact ⟨vs.length - 1, by omega⟩
    rw [hm, List.range_succ_eq_map]
    show 0 ∈ List.foldl (dedupStep vs θ) (dedupStep vs θ [] 0) _
    have h0 : dedupStep vs θ [] 0 = [0] := by
      unfold dedupStep
      rw [if_neg (by simp)]
      rfl
    rw [h0]
    exact foldl_dedupStep_mem_mono vs θ _ [0] 0 (by simp)
  · intro H
    unfold deduplicate_by_similarity
    exact dedup_range_fill vs H vs.length le_rfl

/-- Witness for `dedup_keeps_zero_and_all` on the singleton collection `[[1]]`. -/
theorem dedup_keeps_zero_and_all_witness :
    ([[(1 : ℝ)]] ≠ ([] : List (List ℝ))) ∧
      (0 ∈ deduplicate_by_similarity [[(1 : ℝ)]] (19 / 20) ∧
        ((∀ i j : Nat, i < [[(1 : ℝ)]].length → j < [[(1 : ℝ)]].length → i ≠ j →
            cosineSim ([[(1 : ℝ)]].getD i []) ([[(1 : ℝ)]].getD j []) < 1) →
          deduplicate_by_similarity [[(1 : ℝ)]] 1 = List.range [[(1 : ℝ)]].length)) :=
  ⟨by simp, dedup_keeps_zero_and_all [[(1 : ℝ)]] (19 / 20) (by simp)⟩

/-! ### Search claims -/

theorem search_similar_eq (embeddings : List (List ℝ)) (query : List ℝ)
    (texts : Option (List String)) (top_k : Nat) (threshold : ℝ) :
    search_similar embeddings query texts top_k threshold =
      ((((argsortAsc (cosine_similarity_matrix embeddings query)).reverse).take top_k).filter
        (fun idx =>
          decide (¬ (cosine_similarity_matrix embeddings query).getD idx 0 < threshold))).map
      (fun idx => ⟨idx, (cosine_similarity_matrix embeddings query).getD idx 0,
        texts.map (fun ts => ts.getD idx "")⟩) := rfl

/-- A stable ascending argsort of a score list is pairwise strictly increasing in
the lexicographic (score, index) order: among equal scores, the smaller original
index comes first. -/
theorem argsortAsc_pairwise (s : List ℝ) :
    (argsortAsc s).Pairwise
      (fun i j => s.getD i 0 < s.getD j 0 ∨ (s.getD i 0 = s.getD j 0 ∧ i < j)) := by
  have hsorted : (argsortAsc s).Pairwise (lexLe s) :=
    List.sorted_insertionSort (lexLe s) (List.range s.length)
  have hnd : (argsortAsc s).Pairwise (fun i j => i ≠ j) :=
    (List.perm_insertionSort (lexLe s) (List.range s.length)).symm.nodup
      (List.nodup_range s.length)
  refine (hsorted.and hnd).imp ?_
  rintro i j ⟨hlex | ⟨heq, hle⟩, hne⟩
  · exact Or.inl hlex
  · exact Or.inr ⟨heq, lt_of_le_of_ne hle hne⟩

/-- C2: `search_similar` returns at most `top_k` results (the threshold filter
runs after the top-K selection, so it can only shrink the list further), and
every returned result's score is at least `threshold`. -/
theorem searchSimilar_topk_threshold (embeddings : List (List ℝ)) (query : List ℝ)
    (texts : Option (List String)) (top_k : Nat) (threshold : ℝ) :
    (search_similar embeddings query texts top_k threshold).length ≤ top_k ∧
      ∀ r ∈ search_similar embeddings query texts top_k threshold, threshold ≤ r.score := by
  rw [search_similar_eq]
  constructor
  · rw [List.length_map]
    calc ((((argsortAsc (cosine_similarity_matrix embeddings query)).reverse).take
            top_k).filter _).length
        ≤ (((argsortAsc (cosine_similarity_matrix embeddings query)).reverse).take
            top_k).length := List.length_filter_le _ _
      _ ≤ top_k := by
          rw [List.length_take]
          omega
  · intro r hr
    rcases List.mem_map.mp hr with ⟨idx, hidx, heq⟩
    rcases List.mem_filter.mp hidx with ⟨_, hdec⟩
    have hnotlt := of_decide_eq_true hdec
    rw [← heq]
    exact le_of_not_lt hnotlt

/-- C1, amended: `search_similar` results are pairwise ordered by non-increasing
score, and two results with equal scores appear in descending original-index
order — numpy's ascending (stable) argsort is reversed wholesale, which also
reverses the relative order of tied indices.  The claim's ascending tie order is
refuted by the counterexample below. -/
theorem searchSimilar_sorted_desc (embeddings : List (List ℝ)) (query : List ℝ)
    (texts : Option (List String)) (top_k : Nat) (threshold : ℝ) :
    (search_similar embeddings query texts top_k threshold).Pairwise
      (fun r1 r2 => r2.score < r1.score ∨ (r1.score = r2.score ∧ r2.index < r1.index)) := by
  rw [search_similar_eq]
  set s := cosine_similarity_matrix embeddings query with hs
  have h1 := argsortAsc_pairwise s
  have h2 : ((argsortAsc s).reverse).Pairwise
      (fun i j => s.getD j 0 < s.getD i 0 ∨ (s.getD j 0 = s.getD i 0 ∧ j < i)) :=
    List.pairwise_reverse.mpr h1
  have h3 := h2.sublist (List.take_sublist top_k ((argsortAsc s).reverse))
  have h4 := h3.sublist
    (@List.filter_sublist Nat (fun idx => decide (¬ s.getD idx 0 < threshold))
      (((argsortAsc s).reverse).take top_k))
  refine List.pairwise_map.mpr (h4.imp ?_)
  rintro i j (hlt | ⟨heq, hgt⟩)
  · exact Or.inl hlt
  · exact Or.inr ⟨heq.symm, hgt⟩

/-- C1, counterexample: two identical candidates tie with score 1; the returned
list is `[index 1, index 0]`, so equal scores appear in descending, not
ascending, original-index order. -/
theorem searchSimilar_tie_counterexample :
    ¬ (search_similar [[(1 : ℝ), 0], [(1 : ℝ), 0]] [(1 : ℝ), 0] none 5 0).Pairwise
      (fun r1 r2 => r2.score < r1.score ∨ (r1.score = r2.score ∧ r1.index < r2.index)) := by
  have hsim : cosine_similarity_matrix [[(1 : ℝ), 0], [(1 : ℝ), 0]] [(1 : ℝ), 0] = [1, 1] := by
    unfold cosine_similarity_matrix l2norm dotList
    rw [show (([(1 : ℝ), 0].map fun x => x * x).sum) = 1 by norm_num]
    rw [Real.sqrt_one]
    norm_num
  have hlex : lexLe [(1 : ℝ), 1] 0 1 := Or.inr ⟨by norm_num, by norm_num⟩
  have hargsort : argsortAsc [(1 : ℝ), 1] = [0, 1] := by
    unfold argsortAsc
    rw [show List.range ([(1 : ℝ), 1].length) = [0, 1] from rfl]
    simp only [List.insertionSort, List.orderedInsert]
    rw [if_pos hlex]
  have hfilter : (([1, 0] : List Nat).filter
      (fun idx => decide (¬ ([(1 : ℝ), 1]).getD idx 0 < 0))) = [1, 0] := by
    have e1 : (decide (¬ ([(1 : ℝ), 1]).getD 1 0 < 0)) = true := decide_eq_true (by norm_num)
    have e0 : (decide (¬ ([(1 : ℝ), 1]).getD 0 0 < 0)) = true := decide_eq_true (by norm_num)
    simp only [List.filter, e1, e0]
  have hout : search_similar [[(1 : ℝ), 0], [(1 : ℝ), 0]] [(1 : ℝ), 0] none 5 0 =
      [⟨1, 1, none⟩, ⟨0, 1, none⟩] := by
    rw [search_similar_eq, hsim, hargsort]
    rw [show ((([0, 1] : List Nat).reverse).take 5) = [1, 0] from rfl]
    rw [hfilter]
    simp
  rw [hout]
  intro hpw
  rcases List.pairwise_cons.mp hpw with ⟨hrel, _⟩
  have := hrel ⟨0, 1, none⟩ (by simp)
  rcases this with h | ⟨_, h⟩
  · exact absurd h (by norm_num)
  · exact absurd h (by norm_num)

end EmbeddingUtils
